import Mathlib

/-!
Verification of the shift-reduce recognizer in `parser-macros/src/lib.rs`.

The Rust source is embedded shallowly:

* `NonTerminal`, `Terminal`, `Expression`, `StackValue`, `Grammar` mirror the
  Rust types of the same names.  The Rust `HashMap<NonTerminal, Vec<Vec<Expression>>>`
  is modelled as a total function `NonTerminal → List (List Expression)`
  (a key absent from the map corresponds to the empty list); `allNTs` fixes an
  enumeration of the keys.  Since the engine's observable behaviour (which
  reductions fire, whether the ambiguity abort triggers, the final stack) does
  not depend on the map's iteration order, fixing the order is sound.
* `items` embeds the `flat_map ... collect::<HashMap<_, _>>()` at the top of
  `Parser::parse_expression`: collecting `(nt, production)` pairs into a map
  keyed by `nt` keeps, for each non-terminal, only the LAST production of its
  vector (later inserts overwrite earlier ones).
* `ruleMatches` embeds the body of the `filter_map` closure: the early return
  when `stack.len() < rhs.len()`, then `Iterator::zip(stack.iter(), rhs.iter())`
  — note the zip pairs the stack from the FRONT — and the `all` comparison
  (`matchesComp`).
* `candidates` embeds the collected `matching_non_terminals` vector,
  `ambReport` the data printed by the ambiguity abort (each candidate
  non-terminal with the trailing stack slice `stack[len-n..]` it would consume),
  and `applyReduction` the `drain(saturating_sub ..)` / push of a new `Tree`.
* `reduceLoop` embeds the inner `loop`.  The Rust loop has no fuel; `reduceLoop`
  takes a fuel argument and returns `none` when the loop would still be running
  after `fuel` iterations (the Rust code diverges in exactly that case — see how
  none of the theorems below identifies `none` with any observable outcome).
  `Except.error` carries the ambiguity abort (`panic!`), `Except.ok` the stack
  at the fixed point.
* `runStack` embeds the `while let Some(token) = tokens.next()` loop over an
  already-classified token stream (the engine is generic over the iterator),
  returning the stack exactly as it is when the acceptance test inspects it.
* `acceptOutcome` embeds the final `if stack.len() == 1 && let Some(Terminal(_)) ...`.
* `parseWords`/`parse` embed `Parser::parse`: the whitespace split and the lazy
  token classification that aborts (`panic!`) on the first invalid word, which
  happens at the `tokens.next()` call, i.e. before that iteration's reductions.
* `ParseOutcome` distinguishes the Rust outcomes: `ok` is `Ok(())`,
  `rejected s` is `Err(format!("Bad stack: {s:#?}"))` carrying the residual
  stack, while `ambiguous` and `invalidToken` model the two `panic!` aborts,
  which unwind and never appear as the `Err` value of the returned `Result`.
-/

namespace ShiftReduce

inductive NonTerminal where
  | Sum
  | Sub
  | Mult
  | Atom
  | Number
deriving DecidableEq, Fintype

inductive Terminal where
  | Plus
  | Minus
  | Star
  | LeftParen
  | RightParen
  | Zero
deriving DecidableEq, Fintype

inductive Expression where
  | Terminal (t : Terminal)
  | NonTerminal (nt : NonTerminal)
deriving DecidableEq, Fintype

inductive StackValue where
  | Tree (head : NonTerminal) (values : List StackValue)
  | Terminal (t : Terminal)

/-- Grammar value: `starting_symbol` plus the rule map, the map modelled as a
total function (absent key ↦ `[]`). -/
structure Grammar where
  starting_symbol : NonTerminal
  rules : NonTerminal → List (List Expression)

/-- Fixed enumeration of the `HashMap` keys. -/
def allNTs : List NonTerminal :=
  [NonTerminal.Sum, NonTerminal.Sub, NonTerminal.Mult, NonTerminal.Atom, NonTerminal.Number]

/-- The `items` map of `parse_expression`: flattening `(nt, production)` pairs
into a `HashMap` keyed by `nt` keeps only the last production of each
non-terminal's vector. -/
def items (g : Grammar) : List (NonTerminal × List Expression) :=
  allNTs.filterMap fun nt => (g.rules nt).getLast?.map fun rhs => (nt, rhs)

/-- What the spec calls the flat list of `(non-terminal, production)` pairs:
every alternative production kept.  Used only to compare with `items`. -/
def flattenedRules (g : Grammar) : List (NonTerminal × List Expression) :=
  allNTs.flatMap fun nt => (g.rules nt).map fun rhs => (nt, rhs)

/-- One aligned comparison of a stack entry against an expression slot
(the `match (left, right)` inside the `all` closure). -/
def matchesComp : StackValue → Expression → Bool
  | StackValue.Tree head _, Expression.NonTerminal nt => head == nt
  | StackValue.Terminal l, Expression.Terminal r => l == r
  | _, _ => false

/-- The `filter_map` closure body: the early `None` when
`stack.len() < rhs.len()`, then `Iterator::zip(stack.iter(), rhs.iter())` —
which pairs the stack from the front — and the `all` comparison. -/
def ruleMatches (s : List StackValue) (rhs : List Expression) : Bool :=
  if s.length < rhs.length then false
  else (s.zip rhs).all fun p => matchesComp p.1 p.2

/-- The collected `matching_non_terminals : Vec<(usize, NonTerminal)>`. -/
def candidates (its : List (NonTerminal × List Expression)) (s : List StackValue) :
    List (Nat × NonTerminal) :=
  its.filterMap fun p => if ruleMatches s p.2 = true then some (p.2.length, p.1) else none

/-- Data of the ambiguity abort message: each candidate non-terminal with the
trailing stack slice `stack[stack.len().saturating_sub(len)..]` it would
consume. -/
def ambReport (s : List StackValue) (cands : List (Nat × NonTerminal)) :
    List (NonTerminal × List StackValue) :=
  cands.map fun p => (p.2, s.drop (s.length - p.1))

/-- `stack.drain(stack.len().saturating_sub(len)..)` followed by pushing
`Tree { head: nt, values: drained }`. -/
def applyReduction (s : List StackValue) (len : Nat) (nt : NonTerminal) : List StackValue :=
  s.take (s.length - len) ++ [StackValue.Tree nt (s.drop (s.length - len))]

/-- The inner `loop` of `parse_expression`, with `fuel` bounding the number of
iterations (`none` = the Rust loop is still running after `fuel` iterations).
`Except.error` is the ambiguity abort, `Except.ok` the fixed-point stack. -/
def reduceLoop (g : Grammar) : Nat → List StackValue →
    Option (Except (List (NonTerminal × List StackValue)) (List StackValue))
  | 0, _ => none
  | fuel + 1, s =>
    if 1 < (candidates (items g) s).length then
      some (Except.error (ambReport s (candidates (items g) s)))
    else
      match (candidates (items g) s).head? with
      | none => some (Except.ok s)
      | some c => reduceLoop g fuel (applyReduction s c.1 c.2)

/-- The `while let Some(token) = tokens.next()` loop over an already-classified
token stream: reduce to a fixed point, then shift.  Returns the stack exactly
as the acceptance test inspects it. -/
def runStack (g : Grammar) (fuel : Nat) : List Terminal → List StackValue →
    Option (Except (List (NonTerminal × List StackValue)) (List StackValue))
  | [], s => some (Except.ok s)
  | t :: ts, s =>
    match reduceLoop g fuel s with
    | none => none
    | some (Except.error rep) => some (Except.error rep)
    | some (Except.ok s') => runStack g fuel ts (s' ++ [StackValue.Terminal t])

/-- Outcome of one parse.  `ok`/`rejected` are the two values of the returned
`Result<(), String>` (`rejected` carries the residual stack that the `Err`
string formats); `ambiguous` and `invalidToken` model the two `panic!` aborts,
which never appear as the `Err` value. -/
inductive ParseOutcome where
  | ok
  | rejected (stack : List StackValue)
  | ambiguous (report : List (NonTerminal × List StackValue))
  | invalidToken

/-- The acceptance test:
`stack.len() == 1 && let Some(StackValue::Terminal(_)) = stack.first()`. -/
def acceptOutcome (s : List StackValue) : ParseOutcome :=
  match s with
  | [StackValue.Terminal _] => ParseOutcome.ok
  | _ => ParseOutcome.rejected s

/-- `parse_expression` applied to an already-classified token stream. -/
def parseExprT (g : Grammar) (fuel : Nat) (ts : List Terminal) : Option ParseOutcome :=
  match runStack g fuel ts [] with
  | none => none
  | some (Except.error rep) => some (ParseOutcome.ambiguous rep)
  | some (Except.ok s) => some (acceptOutcome s)

/-- The token classification closure of `Parser::parse` (a word that is not in
the terminal alphabet aborts). -/
def classify (w : List Char) : Option Terminal :=
  match w with
  | ['+'] => some Terminal.Plus
  | ['-'] => some Terminal.Minus
  | ['*'] => some Terminal.Star
  | ['('] => some Terminal.LeftParen
  | [')'] => some Terminal.RightParen
  | ['0'] => some Terminal.Zero
  | _ => none

/-- Helper for `splitWhitespace`; `acc` holds the current word reversed. -/
def splitWhitespaceGo : List Char → List Char → List (List Char)
  | [], acc => if acc.isEmpty then [] else [acc.reverse]
  | c :: cs, acc =>
    if c.isWhitespace then
      if acc.isEmpty then splitWhitespaceGo cs [] else acc.reverse :: splitWhitespaceGo cs []
    else splitWhitespaceGo cs (c :: acc)

/-- `str::split_whitespace`: maximal whitespace-free words, no empties. -/
def splitWhitespace (cs : List Char) : List (List Char) :=
  splitWhitespaceGo cs []

/-- `parse_expression` driven by the lazy classifying iterator of
`Parser::parse`: each `tokens.next()` classifies one word (aborting on an
invalid one) before that iteration's reductions run. -/
def parseWords (g : Grammar) (fuel : Nat) : List (List Char) → List StackValue →
    Option ParseOutcome
  | [], s => some (acceptOutcome s)
  | w :: ws, s =>
    match classify w with
    | none => some ParseOutcome.invalidToken
    | some t =>
      match reduceLoop g fuel s with
      | none => none
      | some (Except.error rep) => some (ParseOutcome.ambiguous rep)
      | some (Except.ok s') => parseWords g fuel ws (s' ++ [StackValue.Terminal t])

/-- `Parser::parse` on a character string. -/
def parse (g : Grammar) (fuel : Nat) (input : List Char) : Option ParseOutcome :=
  parseWords g fuel (splitWhitespace input) []

/-- What the spec asks the matcher to do: compare the production against the
TRAILING slice of the stack, aligned left-to-right.  Used only to compare
with `ruleMatches`. -/
def trailingSliceMatches (s : List StackValue) (rhs : List Expression) : Bool :=
  if s.length < rhs.length then false
  else ((s.drop (s.length - rhs.length)).zip rhs).all fun p => matchesComp p.1 p.2

/-- The arithmetic grammar of the spec's concrete scenarios:
`Sum→Sum '+' Sub | Sub`, `Sub→Sub '-' Mult | Mult`, `Mult→Mult '*' Atom | Atom`,
`Atom→'(' Sum ')' | Number`, `Number→'0'`. -/
def specGrammar : Grammar where
  starting_symbol := NonTerminal.Sum
  rules := fun nt =>
    match nt with
    | NonTerminal.Sum =>
        [[Expression.NonTerminal NonTerminal.Sum, Expression.Terminal Terminal.Plus,
          Expression.NonTerminal NonTerminal.Sub],
         [Expression.NonTerminal NonTerminal.Sub]]
    | NonTerminal.Sub =>
        [[Expression.NonTerminal NonTerminal.Sub, Expression.Terminal Terminal.Minus,
          Expression.NonTerminal NonTerminal.Mult],
         [Expression.NonTerminal NonTerminal.Mult]]
    | NonTerminal.Mult =>
        [[Expression.NonTerminal NonTerminal.Mult, Expression.Terminal Terminal.Star,
          Expression.NonTerminal NonTerminal.Atom],
         [Expression.NonTerminal NonTerminal.Atom]]
    | NonTerminal.Atom =>
        [[Expression.Terminal Terminal.LeftParen, Expression.NonTerminal NonTerminal.Sum,
          Expression.Terminal Terminal.RightParen],
         [Expression.NonTerminal NonTerminal.Number]]
    | NonTerminal.Number => [[Expression.Terminal Terminal.Zero]]

/-- Single rule `Mult → '0'`. -/
def gMult : Grammar where
  starting_symbol := NonTerminal.Mult
  rules := fun nt =>
    match nt with
    | NonTerminal.Mult => [[Expression.Terminal Terminal.Zero]]
    | _ => []

/-- Single rule `Number → '0'`. -/
def gNum : Grammar where
  starting_symbol := NonTerminal.Number
  rules := fun nt =>
    match nt with
    | NonTerminal.Number => [[Expression.Terminal Terminal.Zero]]
    | _ => []

/-- Two rules `Atom → '0'` and `Number → '0'`: both match a lone `'0'`. -/
def gAmb : Grammar where
  starting_symbol := NonTerminal.Atom
  rules := fun nt =>
    match nt with
    | NonTerminal.Atom => [[Expression.Terminal Terminal.Zero]]
    | NonTerminal.Number => [[Expression.Terminal Terminal.Zero]]
    | _ => []

/-- Grammar with no rules at all. -/
def gEmpty : Grammar where
  starting_symbol := NonTerminal.Sum
  rules := fun _ => []

/-- Two rules `Sum → '+'` and `Sub → '0' '+'`: on the stack `['0', '+']` both
productions match its trailing slice, but only `Sub`'s matches its leading
slice. -/
def gSilent : Grammar where
  starting_symbol := NonTerminal.Sum
  rules := fun nt =>
    match nt with
    | NonTerminal.Sum => [[Expression.Terminal Terminal.Plus]]
    | NonTerminal.Sub =>
        [[Expression.Terminal Terminal.Zero, Expression.Terminal Terminal.Plus]]
    | _ => []

/-- The stack states the engine can be in when it computes `candidates`:
the empty initial stack; the state after a reduction (which fires exactly when
the candidate list is a singleton); and the state after a shift (which happens
exactly when the reduce loop exits, i.e. when no candidate is left). -/
inductive Reach (g : Grammar) : List StackValue → Prop where
  | init : Reach g []
  | reduce (s : List StackValue) (len : Nat) (nt : NonTerminal)
      (h₁ : Reach g s) (h₂ : candidates (items g) s = [(len, nt)]) :
      Reach g (applyReduction s len nt)
  | shift (s : List StackValue) (t : Terminal)
      (h₁ : Reach g s) (h₂ : candidates (items g) s = []) :
      Reach g (s ++ [StackValue.Terminal t])

/-- Well-formedness of a stack entry: a `Tree { head, values }` carries some
production `(head, rhs)` of the scanned rule list with `values.length =
rhs.length` and every child matching its slot, recursively. -/
inductive SVOk (its : List (NonTerminal × List Expression)) : StackValue → Prop where
  | terminal (t : Terminal) : SVOk its (StackValue.Terminal t)
  | tree (head : NonTerminal) (values : List StackValue) (rhs : List Expression)
      (hmem : (head, rhs) ∈ its)
      (hlen : values.length = rhs.length)
      (hslots : ∀ p ∈ values.zip rhs, matchesComp p.1 p.2 = true)
      (hchildren : ∀ v ∈ values, SVOk its v) :
      SVOk its (StackValue.Tree head values)

/-- Invariant of stacks at candidate-examination points: any production that
matches spans the whole stack, or is empty. -/
def ExamOk (g : Grammar) (s : List StackValue) : Prop :=
  ∀ nt rhs, (nt, rhs) ∈ items g → ruleMatches s rhs = true →
    rhs.length = s.length ∨ rhs = []

/-- Edge of the unit-production relation: from the single right-hand-side
symbol of a length-one production to the producing non-terminal. -/
def UnitRel (g : Grammar) (X Y : Expression) : Prop :=
  ∃ nt, Y = Expression.NonTerminal nt ∧ [X] ∈ g.rules nt

/-- The expression slot a stack entry can fill. -/
def symbolOf : StackValue → Expression
  | StackValue.Tree head _ => Expression.NonTerminal head
  | StackValue.Terminal t => Expression.Terminal t

theorem zip_append_left {α β : Type} :
    ∀ (s l₂ : List α) (r : List β), r.length ≤ s.length → (s ++ l₂).zip r = s.zip r := by
  intro s
  induction s with
  | nil =>
    intro l₂ r hr
    have : r = [] := List.length_eq_zero.mp (Nat.le_zero.mp (by simpa using hr))
    subst this
    simp
  | cons a s ih =>
    intro l₂ r hr
    cases r with
    | nil => simp
    | cons b r' =>
      simp only [List.cons_append, List.zip_cons_cons]
      rw [ih]
      simpa using hr

theorem ruleMatches_length {s : List StackValue} {rhs : List Expression}
    (h : ruleMatches s rhs = true) : rhs.length ≤ s.length := by
  by_contra hlt
  unfold ruleMatches at h
  rw [if_pos (Nat.lt_of_not_le hlt)] at h
  exact Bool.noConfusion h

theorem ruleMatches_all {s : List StackValue} {rhs : List Expression}
    (h : ruleMatches s rhs = true) : ∀ p ∈ s.zip rhs, matchesComp p.1 p.2 = true := by
  have hle := ruleMatches_length h
  unfold ruleMatches at h
  rw [if_neg (Nat.not_lt.mpr hle)] at h
  exact fun p hp => List.all_eq_true.mp h p hp

theorem ruleMatches_of_le {s l₂ : List StackValue} {rhs : List Expression}
    (h : rhs.length ≤ s.length) : ruleMatches (s ++ l₂) rhs = ruleMatches s rhs := by
  unfold ruleMatches
  rw [zip_append_left s l₂ rhs h]
  have h1 : ¬ (s ++ l₂).length < rhs.length := by
    rw [List.length_append]
    omega
  rw [if_neg h1, if_neg (Nat.not_lt.mpr h)]

theorem mem_candidates {its : List (NonTerminal × List Expression)} {s : List StackValue}
    {len : Nat} {nt : NonTerminal} :
    (len, nt) ∈ candidates its s ↔
      ∃ rhs, (nt, rhs) ∈ its ∧ ruleMatches s rhs = true ∧ rhs.length = len := by
  unfold candidates
  rw [List.mem_filterMap]
  constructor
  · rintro ⟨⟨nt₁, rhs₁⟩, hmem, hf⟩
    by_cases hm : ruleMatches s rhs₁ = true
    · rw [if_pos hm] at hf
      simp only [Option.some.injEq, Prod.mk.injEq] at hf
      obtain ⟨hl, hn⟩ := hf
      subst hn
      exact ⟨rhs₁, hmem, hm, hl⟩
    · rw [if_neg hm] at hf
      exact Option.noConfusion hf
  · rintro ⟨rhs, hmem, hm, hlen⟩
    refine ⟨(nt, rhs), hmem, ?_⟩
    rw [if_pos hm, hlen]

theorem applyReduction_full (s : List StackValue) (nt : NonTerminal) :
    applyReduction s s.length nt = [StackValue.Tree nt s] := by
  unfold applyReduction
  rw [Nat.sub_self]
  simp

theorem applyReduction_zero (s : List StackValue) (nt : NonTerminal) :
    applyReduction s 0 nt = s ++ [StackValue.Tree nt []] := by
  unfold applyReduction
  simp

theorem mem_allNTs (nt : NonTerminal) : nt ∈ allNTs := by
  cases nt <;> simp [allNTs]

theorem mem_items {g : Grammar} {nt : NonTerminal} {rhs : List Expression} :
    (nt, rhs) ∈ items g ↔ (g.rules nt).getLast? = some rhs := by
  unfold items
  rw [List.mem_filterMap]
  constructor
  · rintro ⟨nt₁, _, hf⟩
    rw [Option.map_eq_some'] at hf
    obtain ⟨rhs₁, hx, hf⟩ := hf
    simp only [Prod.mk.injEq] at hf
    obtain ⟨hn, hr⟩ := hf
    subst hn
    subst hr
    exact hx
  · intro h
    exact ⟨nt, mem_allNTs nt, by rw [h]; rfl⟩

theorem items_rhs_mem {g : Grammar} {nt : NonTerminal} {rhs : List Expression}
    (h : (nt, rhs) ∈ items g) : rhs ∈ g.rules nt :=
  List.mem_of_getLast?_eq_some (mem_items.mp h)

theorem matchesComp_iff {v : StackValue} {X : Expression} :
    matchesComp v X = true ↔ X = symbolOf v := by
  cases v with
  | Tree head values =>
    cases X with
    | Terminal t => simp [matchesComp, symbolOf]
    | NonTerminal nt =>
      simp only [matchesComp, symbolOf, beq_iff_eq, Expression.NonTerminal.injEq]
      exact eq_comm
  | Terminal tv =>
    cases X with
    | Terminal t =>
      simp only [matchesComp, symbolOf, beq_iff_eq, Expression.Terminal.injEq]
      exact eq_comm
    | NonTerminal nt => simp [matchesComp, symbolOf]

/-- Invariant of all examination-point stacks: every entry is well formed, and
any matching production spans the whole stack or is empty.  The second part is
what keeps the first preserved: since a reduction drains the TRAILING slice
while the match inspected the LEADING one, well-formedness of the new `Tree`
relies on the two slices coinciding, which they do exactly when the matched
production spans the whole stack (the empty production contributes an empty,
vacuously well-formed `Tree`). -/
theorem reach_invariant (g : Grammar) (s : List StackValue) (h : Reach g s) :
    (∀ v ∈ s, SVOk (items g) v) ∧ ExamOk g s := by
  induction h with
  | init =>
    refine ⟨fun v hv => absurd hv (List.not_mem_nil v), ?_⟩
    intro nt rhs hmem hmatch
    right
    have hle := ruleMatches_length hmatch
    exact List.length_eq_zero.mp (Nat.le_zero.mp (by simpa using hle))
  | reduce s len nt hre hc ih =>
    have hmemc : (len, nt) ∈ candidates (items g) s := by
      rw [hc]
      exact List.mem_singleton.mpr rfl
    obtain ⟨rhs₁, hri, hrm, hrl⟩ := mem_candidates.mp hmemc
    rcases ih.2 nt rhs₁ hri hrm with hfull | hnil
    · have hlen : len = s.length := by
        rw [← hrl]
        exact hfull
      subst hlen
      rw [applyReduction_full]
      constructor
      · intro v hv
        rw [List.mem_singleton] at hv
        subst hv
        exact SVOk.tree nt s rhs₁ hri hfull.symm (ruleMatches_all hrm) ih.1
      · intro nt₂ rhs₂ _ hm₂
        have hle := ruleMatches_length hm₂
        cases rhs₂ with
        | nil => right; rfl
        | cons x xs =>
          left
          simp only [List.length_singleton] at hle ⊢
          simp only [List.length_cons] at hle ⊢
          omega
    · subst hnil
      have hlen0 : len = 0 := by simpa using hrl.symm
      subst hlen0
      rw [applyReduction_zero]
      constructor
      · intro v hv
        rw [List.mem_append] at hv
        rcases hv with hv | hv
        · exact ih.1 v hv
        · rw [List.mem_singleton] at hv
          subst hv
          exact SVOk.tree nt [] [] hri rfl
            (fun p hp => absurd hp (List.not_mem_nil p))
            (fun v hv => absurd hv (List.not_mem_nil v))
      · intro nt₂ rhs₂ hi₂ hm₂
        by_cases h0 : rhs₂ = []
        · right; exact h0
        have hle := ruleMatches_length hm₂
        rw [List.length_append, List.length_singleton] at hle
        rcases Nat.eq_or_lt_of_le hle with heq | hlt
        · left
          rw [List.length_append, List.length_singleton]
          exact heq
        · have hle' : rhs₂.length ≤ s.length := by omega
          have hm₂' : ruleMatches s rhs₂ = true := by
            rw [← ruleMatches_of_le hle']
            exact hm₂
          rcases ih.2 nt₂ rhs₂ hi₂ hm₂' with hf2 | hn2
          · have hmem₂ : (rhs₂.length, nt₂) ∈ candidates (items g) s :=
              mem_candidates.mpr ⟨rhs₂, hi₂, hm₂', rfl⟩
            rw [hc, List.mem_singleton] at hmem₂
            have h02 : rhs₂.length = 0 := congrArg Prod.fst hmem₂
            exact absurd (List.length_eq_zero.mp h02) h0
          · exact absurd hn2 h0
  | shift s t hre hc ih =>
    constructor
    · intro v hv
      rw [List.mem_append] at hv
      rcases hv with hv | hv
      · exact ih.1 v hv
      · rw [List.mem_singleton] at hv
        subst hv
        exact SVOk.terminal t
    · intro nt₂ rhs₂ hi₂ hm₂
      by_cases h0 : rhs₂ = []
      · right; exact h0
      have hle := ruleMatches_length hm₂
      rw [List.length_append, List.length_singleton] at hle
      rcases Nat.eq_or_lt_of_le hle with heq | hlt
      · left
        rw [List.length_append, List.length_singleton]
        exact heq
      · have hle' : rhs₂.length ≤ s.length := by omega
        have hm₂' : ruleMatches s rhs₂ = true := by
          rw [← ruleMatches_of_le hle']
          exact hm₂
        have hmem₂ : (rhs₂.length, nt₂) ∈ candidates (items g) s :=
          mem_candidates.mpr ⟨rhs₂, hi₂, hm₂', rfl⟩
        rw [hc] at hmem₂
        exact absurd hmem₂ (List.not_mem_nil _)

/-- If the reduce loop exits normally, the resulting stack has no candidate
left (it is a fixed point). -/
theorem reduceLoop_ok_candidates (g : Grammar) :
    ∀ (fuel : Nat) (s s' : List StackValue),
      reduceLoop g fuel s = some (Except.ok s') → candidates (items g) s' = [] := by
  intro fuel
  induction fuel with
  | zero => intro s s' h; exact Option.noConfusion h
  | succ n ih =>
    intro s s' h
    unfold reduceLoop at h
    by_cases h1 : 1 < (candidates (items g) s).length
    · rw [if_pos h1] at h
      exact Except.noConfusion (Option.some.inj h)
    · rw [if_neg h1] at h
      cases hcs : candidates (items g) s with
      | nil =>
        rw [hcs] at h
        have hss : s = s' := Except.ok.inj (Option.some.inj h)
        rw [← hss]
        exact hcs
      | cons c cs =>
        rw [hcs] at h
        exact ih _ _ h

/-- The reduce loop maps reachable stacks to reachable stacks. -/
theorem reduceLoop_ok_reach (g : Grammar) :
    ∀ (fuel : Nat) (s s' : List StackValue), Reach g s →
      reduceLoop g fuel s = some (Except.ok s') → Reach g s' := by
  intro fuel
  induction fuel with
  | zero => intro s s' _ h; exact Option.noConfusion h
  | succ n ih =>
    intro s s' hr h
    unfold reduceLoop at h
    by_cases h1 : 1 < (candidates (items g) s).length
    · rw [if_pos h1] at h
      exact Except.noConfusion (Option.some.inj h)
    · rw [if_neg h1] at h
      cases hcs : candidates (items g) s with
      | nil =>
        rw [hcs] at h
        exact (Except.ok.inj (Option.some.inj h)) ▸ hr
      | cons c cs =>
        rw [hcs] at h1
        have hcs1 : cs = [] := by
          simp only [List.length_cons, Nat.not_lt] at h1
          exact List.length_eq_zero.mp (by omega)
        subst hcs1
        rw [hcs] at h
        have hreach2 : Reach g (applyReduction s c.1 c.2) :=
          Reach.reduce s c.1 c.2 hr (by rw [hcs])
        exact ih _ _ hreach2 h

/-- The shift loop maps reachable stacks to reachable stacks; in particular the
stack the acceptance test inspects is reachable. -/
theorem runStack_ok_reach (g : Grammar) (fuel : Nat) :
    ∀ (ts : List Terminal) (s s' : List StackValue), Reach g s →
      runStack g fuel ts s = some (Except.ok s') → Reach g s' := by
  intro ts
  induction ts with
  | nil =>
    intro s s' hr h
    exact (Except.ok.inj (Option.some.inj h)) ▸ hr
  | cons t ts ih =>
    intro s s' hr h
    unfold runStack at h
    cases hrl : reduceLoop g fuel s with
    | none =>
      rw [hrl] at h
      exact Option.noConfusion h
    | some r =>
      cases r with
      | error rep =>
        rw [hrl] at h
        exact Except.noConfusion (Option.some.inj h)
      | ok s₁ =>
        rw [hrl] at h
        have hr₁ : Reach g s₁ := reduceLoop_ok_reach g fuel s s₁ hr hrl
        have hc₁ : candidates (items g) s₁ = [] := reduceLoop_ok_candidates g fuel s s₁ hrl
        exact ih _ _ (Reach.shift s₁ t hr₁ hc₁) h

theorem reduceLoop_succ_nil {g : Grammar} {s : List StackValue} {fuel : Nat}
    (hc : candidates (items g) s = []) :
    reduceLoop g (fuel + 1) s = some (Except.ok s) := by
  unfold reduceLoop
  rw [hc]
  simp

theorem reduceLoop_succ_single {g : Grammar} {s : List StackValue} {fuel len : Nat}
    {nt : NonTerminal} (hc : candidates (items g) s = [(len, nt)]) :
    reduceLoop g (fuel + 1) s = reduceLoop g fuel (applyReduction s len nt) := by
  simp only [reduceLoop]
  rw [hc]
  simp

theorem reduceLoop_succ_amb {g : Grammar} {s : List StackValue} {fuel : Nat}
    (hc : 1 < (candidates (items g) s).length) :
    reduceLoop g (fuel + 1) s =
      some (Except.error (ambReport s (candidates (items g) s))) := by
  unfold reduceLoop
  rw [if_pos hc]

/-- On the finite expression alphabet, acyclicity of the unit-production
relation makes it well founded in the direction the unit-reduction chains
follow. -/
theorem unitRel_wf (g : Grammar) (h2 : ∀ X, ¬ Relation.TransGen (UnitRel g) X X) :
    WellFounded (fun Y X => UnitRel g X Y) := by
  have htrans : IsTrans Expression (fun Y X => Relation.TransGen (UnitRel g) X Y) :=
    ⟨fun a b c hab hbc => Relation.TransGen.trans hbc hab⟩
  have hirr : IsIrrefl Expression (fun Y X => Relation.TransGen (UnitRel g) X Y) :=
    ⟨fun a ha => h2 a ha⟩
  have hwf : WellFounded (fun Y X => Relation.TransGen (UnitRel g) X Y) :=
    @Finite.wellFounded_of_trans_of_irrefl _ _ _ htrans hirr
  exact Subrelation.wf (fun hxy => Relation.TransGen.single hxy) hwf

/-- Once the stack is a singleton, only unit (or empty, here excluded)
productions can fire; each one follows one edge of the unit-production
relation, so a well-founded relation bounds the chain. -/
theorem singleton_loop_terminates (g : Grammar)
    (h1 : ∀ nt rhs, rhs ∈ g.rules nt → rhs ≠ [])
    (hwf : WellFounded (fun Y X => UnitRel g X Y)) :
    ∀ (X : Expression) (V : StackValue), symbolOf V = X →
      ∃ fuel r, reduceLoop g fuel [V] = some r := by
  intro X₀
  refine WellFounded.induction hwf
    (C := fun X => ∀ V, symbolOf V = X → ∃ fuel r, reduceLoop g fuel [V] = some r) X₀ ?_
  intro X ih V hV
  cases hcs : candidates (items g) [V] with
  | nil => exact ⟨1, Except.ok [V], reduceLoop_succ_nil hcs⟩
  | cons c cs =>
    cases cs with
    | nil =>
      obtain ⟨len, ntc⟩ := c
      have hmemc : (len, ntc) ∈ candidates (items g) [V] := by
        rw [hcs]
        exact List.mem_singleton.mpr rfl
      obtain ⟨rhs, hri, hrm, hrl⟩ := mem_candidates.mp hmemc
      have hne : rhs ≠ [] := h1 ntc rhs (items_rhs_mem hri)
      have hle : rhs.length ≤ 1 := by simpa using ruleMatches_length hrm
      have h1len : rhs.length = 1 := by
        cases rhs with
        | nil => exact absurd rfl hne
        | cons a l => simp only [List.length_cons] at hle ⊢; omega
      obtain ⟨X', hrhs⟩ := List.length_eq_one.mp h1len
      subst hrhs
      have hmX : matchesComp V X' = true := by
        refine ruleMatches_all hrm (V, X') ?_
        simp
      have hX'X : X' = X := by
        rw [matchesComp_iff] at hmX
        rw [hmX, hV]
      have hunit : UnitRel g X (Expression.NonTerminal ntc) :=
        ⟨ntc, rfl, by rw [← hX'X]; exact items_rhs_mem hri⟩
      have hlen1 : len = 1 := by simpa using hrl.symm
      subst hlen1
      have happ : applyReduction [V] 1 ntc = [StackValue.Tree ntc [V]] := by
        simp [applyReduction]
      obtain ⟨fuel, r, hrun⟩ := ih (Expression.NonTerminal ntc) hunit (StackValue.Tree ntc [V]) rfl
      refine ⟨fuel + 1, r, ?_⟩
      rw [reduceLoop_succ_single hcs, happ]
      exact hrun
    | cons c₂ cs₂ =>
      refine ⟨1, Except.error (ambReport [V] (candidates (items g) [V])), ?_⟩
      apply reduceLoop_succ_amb
      rw [hcs]
      simp

/-- On any stack of the shape `['0', v]` the engine loops forever under
`gMult`: the leading `'0'` keeps matching `Mult → '0'` while the drain keeps
rewrapping the trailing entry. -/
theorem gMult_diverges : ∀ (fuel : Nat) (v : StackValue),
    reduceLoop gMult fuel [StackValue.Terminal Terminal.Zero, v] = none := by
  intro fuel
  induction fuel with
  | zero => intro v; rfl
  | succ n ih =>
    intro v
    have hc : candidates (items gMult) [StackValue.Terminal Terminal.Zero, v] =
        [(1, NonTerminal.Mult)] := rfl
    rw [reduceLoop_succ_single hc]
    have happ :
        applyReduction [StackValue.Terminal Terminal.Zero, v] 1 NonTerminal.Mult =
          [StackValue.Terminal Terminal.Zero, StackValue.Tree NonTerminal.Mult [v]] := rfl
    rw [happ]
    exact ih _

theorem unitRel_gMult {X Y : Expression} (h : UnitRel gMult X Y) :
    X = Expression.Terminal Terminal.Zero ∧ Y = Expression.NonTerminal NonTerminal.Mult := by
  obtain ⟨nt, hy, hmem⟩ := h
  subst hy
  cases nt with
  | Mult =>
    refine ⟨?_, rfl⟩
    have hx : [X] = [Expression.Terminal Terminal.Zero] := by simpa [gMult] using hmem
    simpa using hx
  | Sum => simp [gMult] at hmem
  | Sub => simp [gMult] at hmem
  | Atom => simp [gMult] at hmem
  | Number => simp [gMult] at hmem

theorem transGen_gMult_dst {X Y : Expression}
    (h : Relation.TransGen (UnitRel gMult) X Y) :
    Y = Expression.NonTerminal NonTerminal.Mult := by
  induction h with
  | single h => exact (unitRel_gMult h).2
  | tail _ h _ => exact (unitRel_gMult h).2

theorem transGen_gMult_src {X Y : Expression}
    (h : Relation.TransGen (UnitRel gMult) X Y) :
    X = Expression.Terminal Terminal.Zero := by
  induction h with
  | single h => exact (unitRel_gMult h).1
  | tail _ _ ih => exact ih

theorem gMult_acyclic : ∀ X, ¬ Relation.TransGen (UnitRel gMult) X X := by
  intro X h
  have h1 := transGen_gMult_dst h
  have h2 := transGen_gMult_src h
  rw [h1] at h2
  exact Expression.noConfusion h2

theorem unitRel_gEmpty {X Y : Expression} (h : UnitRel gEmpty X Y) : False := by
  obtain ⟨nt, _, hmem⟩ := h
  simp [gEmpty] at hmem

theorem transGen_gEmpty {X Y : Expression}
    (h : Relation.TransGen (UnitRel gEmpty) X Y) : False := by
  induction h with
  | single h => exact unitRel_gEmpty h
  | tail _ h _ => exact unitRel_gEmpty h

theorem gEmpty_acyclic : ∀ X, ¬ Relation.TransGen (UnitRel gEmpty) X X :=
  fun _ h => transGen_gEmpty h

theorem items_mk (start' : NonTerminal) (g : Grammar) :
    items (Grammar.mk start' g.rules) = items g := rfl

/-- The reduce loop never reads `starting_symbol`. -/
theorem reduceLoop_mk (start' : NonTerminal) (g : Grammar) :
    ∀ (fuel : Nat) (s : List StackValue),
      reduceLoop (Grammar.mk start' g.rules) fuel s = reduceLoop g fuel s := by
  intro fuel
  induction fuel with
  | zero => intro s; rfl
  | succ n ih =>
    intro s
    simp only [reduceLoop, items_mk]
    by_cases h1 : 1 < (candidates (items g) s).length
    · simp only [if_pos h1]
    · simp only [if_neg h1]
      cases (candidates (items g) s).head? with
      | none => rfl
      | some c => exact ih _

/-- The shift loop never reads `starting_symbol`. -/
theorem runStack_mk (start' : NonTerminal) (g : Grammar) (fuel : Nat) :
    ∀ (ts : List Terminal) (s : List StackValue),
      runStack (Grammar.mk start' g.rules) fuel ts s = runStack g fuel ts s := by
  intro ts
  induction ts with
  | nil => intro s; rfl
  | cons t ts ih =>
    intro s
    simp only [runStack, reduceLoop_mk]
    cases reduceLoop g fuel s with
    | none => rfl
    | some r =>
      cases r with
      | error rep => rfl
      | ok s₁ => exact ih _

/-- C1: the claim says a pair is a candidate reduction iff the TRAILING slice
of the stack matches the production; the code instead zips the stack from the
front, so it compares the LEADING slice.  Concretely, under the single rule
`Mult → '0'`, the stack `['+', '0']` — reached by parsing an input starting
`+ 0 ...` — has a trailing slice matching that production, yet the code
computes no candidate at all (its leading slice `['+']` does not match),
even though the reduction it would apply drains the trailing slice. -/
theorem c1_code_matches_leading_slice :
    Reach gMult [StackValue.Terminal Terminal.Plus, StackValue.Terminal Terminal.Zero] ∧
    (NonTerminal.Mult, [Expression.Terminal Terminal.Zero]) ∈ items gMult ∧
    trailingSliceMatches
      [StackValue.Terminal Terminal.Plus, StackValue.Terminal Terminal.Zero]
      [Expression.Terminal Terminal.Zero] = true ∧
    ruleMatches
      [StackValue.Terminal Terminal.Plus, StackValue.Terminal Terminal.Zero]
      [Expression.Terminal Terminal.Zero] = false ∧
    candidates (items gMult)
      [StackValue.Terminal Terminal.Plus, StackValue.Terminal Terminal.Zero] = [] := by
  refine ⟨?_, by decide, rfl, rfl, rfl⟩
  have h1 : Reach gMult [StackValue.Terminal Terminal.Plus] :=
    Reach.shift [] Terminal.Plus Reach.init rfl
  exact Reach.shift [StackValue.Terminal Terminal.Plus] Terminal.Zero h1 rfl

/-- C2: the claim says every `(non-terminal, production)` pair of the grammar
is scanned, including each alternative of a non-terminal with several
productions; but the code collects the flattened pairs into a `HashMap` keyed
by the non-terminal, so only the LAST production of each non-terminal
survives.  For the spec's arithmetic grammar, `Atom → '(' Sum ')'` is an
alternative of the grammar yet never appears in the scanned list `items`,
which retains exactly one (the last) production per non-terminal. -/
theorem c2_items_drop_alternatives :
    (NonTerminal.Atom,
        [Expression.Terminal Terminal.LeftParen, Expression.NonTerminal NonTerminal.Sum,
         Expression.Terminal Terminal.RightParen]) ∈ flattenedRules specGrammar ∧
    (NonTerminal.Atom,
        [Expression.Terminal Terminal.LeftParen, Expression.NonTerminal NonTerminal.Sum,
         Expression.Terminal Terminal.RightParen]) ∉ items specGrammar ∧
    items specGrammar =
      [(NonTerminal.Sum, [Expression.NonTerminal NonTerminal.Sub]),
       (NonTerminal.Sub, [Expression.NonTerminal NonTerminal.Mult]),
       (NonTerminal.Mult, [Expression.NonTerminal NonTerminal.Atom]),
       (NonTerminal.Atom, [Expression.NonTerminal NonTerminal.Number]),
       (NonTerminal.Number, [Expression.Terminal Terminal.Zero])] :=
  ⟨by decide, by decide, rfl⟩

/-- C3: the claim (and the repository's own test) says parsing `"( 0 * 0 )"`
under the arithmetic grammar succeeds; evaluating the embedded code shows it
returns the rejection error instead, with all five tokens still unreduced on
the stack (the leading-slice matching of C1 and the dropped alternatives of
C2 prevent every reduction). -/
theorem c3_paren_input_rejected :
    parse specGrammar 20 ['(', ' ', '0', ' ', '*', ' ', '0', ' ', ')'] =
      some (ParseOutcome.rejected
        [StackValue.Terminal Terminal.LeftParen, StackValue.Terminal Terminal.Zero,
         StackValue.Terminal Terminal.Star, StackValue.Terminal Terminal.Zero,
         StackValue.Terminal Terminal.RightParen]) := rfl

/-- C4: the parse succeeds iff, when the stream is exhausted without an abort,
the inspected stack is exactly one `StackValue::Terminal` entry; and the
result is unchanged when `starting_symbol` is replaced by any other
non-terminal (the field is never read by the engine). -/
theorem c4_accept_iff_single_terminal (g : Grammar) (fuel : Nat) (ts : List Terminal) :
    (parseExprT g fuel ts = some ParseOutcome.ok ↔
      ∃ t, runStack g fuel ts [] = some (Except.ok [StackValue.Terminal t])) ∧
    ∀ start' : NonTerminal,
      parseExprT (Grammar.mk start' g.rules) fuel ts = parseExprT g fuel ts := by
  constructor
  · unfold parseExprT
    cases h : runStack g fuel ts [] with
    | none => simp
    | some r =>
      cases r with
      | error rep => simp
      | ok s =>
        cases s with
        | nil => simp [acceptOutcome]
        | cons v tail =>
          cases tail with
          | nil =>
            cases v with
            | Terminal t => simp [acceptOutcome]
            | Tree head values => simp [acceptOutcome]
          | cons w tail₂ => simp [acceptOutcome]
  · intro start'
    unfold parseExprT
    rw [runStack_mk]

/-- C5: the claim says the reduce-to-fixed-point loop runs one more time after
the last token is shifted, before the acceptance test; in the code the
`while let` loop reduces only BEFORE each shift, so after the last shift the
acceptance test inspects the stack immediately.  Concretely, with grammar
`Number → '0'` and input `0`, the parse accepts with final stack `['0']`,
although one more pass of the reduce loop would have turned that stack into
`[Tree Number ['0']]` (and the acceptance test would then have rejected). -/
theorem c5_no_reduction_after_last_shift :
    parseExprT gNum 3 [Terminal.Zero] = some ParseOutcome.ok ∧
    runStack gNum 3 [Terminal.Zero] [] =
      some (Except.ok [StackValue.Terminal Terminal.Zero]) ∧
    reduceLoop gNum 3 [StackValue.Terminal Terminal.Zero] =
      some (Except.ok
        [StackValue.Tree NonTerminal.Number [StackValue.Terminal Terminal.Zero]]) :=
  ⟨rfl, rfl, rfl⟩

/-- When the code's own scan does report more than one match, the engine
aborts at once with the report naming each scanned match and the trailing
slice it would consume, and the abort propagates through the token loop.
(This is weaker than claim C6, whose notion of candidate reduction is
trailing-slice matching: see the silent pick exhibited below.) -/
theorem reduceLoop_abort_on_scan_ambiguity (g : Grammar) (fuel : Nat) (s : List StackValue)
    (h : 1 < (candidates (items g) s).length) :
    reduceLoop g (fuel + 1) s =
        some (Except.error (ambReport s (candidates (items g) s))) ∧
    ∀ (t : Terminal) (ts : List Terminal),
      runStack g (fuel + 1) (t :: ts) s =
        some (Except.error (ambReport s (candidates (items g) s))) := by
  refine ⟨reduceLoop_succ_amb h, ?_⟩
  intro t ts
  unfold runStack
  rw [reduceLoop_succ_amb h]

/-- C6: the claim says that whenever more than one `(non-terminal, production)`
candidate reduction — trailing-slice matching, per the spec's definition —
exists at a reduction step, the parse fails fatally with the ambiguity report
and never silently applies one of the competing candidates.  False of the
code: with rules `Sum → '+'` and `Sub → '0' '+'`, the stack `['0', '+']` —
reached while parsing `0 + 0` — has BOTH pairs as candidate reductions in the
claim's sense (both match its trailing slice), yet the code's leading-slice
scan reports exactly one match, `(2, Sub)`, silently reduces by it, and the
whole parse ends in an ordinary rejection with no ambiguity abort. -/
theorem c6_silent_pick_on_ambiguity :
    Reach gSilent [StackValue.Terminal Terminal.Zero, StackValue.Terminal Terminal.Plus] ∧
    (NonTerminal.Sum, [Expression.Terminal Terminal.Plus]) ∈ items gSilent ∧
    (NonTerminal.Sub,
        [Expression.Terminal Terminal.Zero, Expression.Terminal Terminal.Plus])
      ∈ items gSilent ∧
    trailingSliceMatches
      [StackValue.Terminal Terminal.Zero, StackValue.Terminal Terminal.Plus]
      [Expression.Terminal Terminal.Plus] = true ∧
    trailingSliceMatches
      [StackValue.Terminal Terminal.Zero, StackValue.Terminal Terminal.Plus]
      [Expression.Terminal Terminal.Zero, Expression.Terminal Terminal.Plus] = true ∧
    candidates (items gSilent)
      [StackValue.Terminal Terminal.Zero, StackValue.Terminal Terminal.Plus] =
      [(2, NonTerminal.Sub)] ∧
    reduceLoop gSilent 3
        [StackValue.Terminal Terminal.Zero, StackValue.Terminal Terminal.Plus] =
      some (Except.ok
        [StackValue.Tree NonTerminal.Sub
          [StackValue.Terminal Terminal.Zero, StackValue.Terminal Terminal.Plus]]) ∧
    parseExprT gSilent 5 [Terminal.Zero, Terminal.Plus, Terminal.Zero] =
      some (ParseOutcome.rejected
        [StackValue.Tree NonTerminal.Sub
          [StackValue.Terminal Terminal.Zero, StackValue.Terminal Terminal.Plus],
         StackValue.Terminal Terminal.Zero]) := by
  refine ⟨?_, by decide, by decide, rfl, rfl, rfl, rfl, rfl⟩
  have h1 : Reach gSilent [StackValue.Terminal Terminal.Zero] :=
    Reach.shift [] Terminal.Zero Reach.init rfl
  exact Reach.shift [StackValue.Terminal Terminal.Zero] Terminal.Plus h1 rfl

/-- C7: every `Tree` in every reachable stack state is well formed: it carries
a production of the scanned rule list whose length equals the length of its
`values`, with every child matching the corresponding slot (head equality for
non-terminal slots, value equality for terminal slots), recursively. -/
theorem c7_tree_invariant (g : Grammar) (s : List StackValue) (h : Reach g s) :
    ∀ v ∈ s, SVOk (items g) v :=
  (reach_invariant g s h).1

/-- C7 witness: the tree produced by reducing `'0'` with `Number → '0'`. -/
theorem c7_witness :
    SVOk (items gNum)
      (StackValue.Tree NonTerminal.Number [StackValue.Terminal Terminal.Zero]) := by
  have h0 : Reach gNum [StackValue.Terminal Terminal.Zero] :=
    Reach.shift [] Terminal.Zero Reach.init rfl
  have h1 : Reach gNum
      [StackValue.Tree NonTerminal.Number [StackValue.Terminal Terminal.Zero]] :=
    Reach.reduce [StackValue.Terminal Terminal.Zero] 1 NonTerminal.Number h0 rfl
  exact c7_tree_invariant gNum _ h1 _ (List.mem_singleton.mpr rfl)

/-- C8 counterexample: the claim says every failure is delivered as the error
value of the returned `Result`; but on the ambiguous grammar
(`Atom → '0'`, `Number → '0'`) with input `"0 0"` the parse ends in the
ambiguity abort (`panic!`, modelled by `ParseOutcome.ambiguous`), which is not
a value of the returned `Result` at all. -/
theorem c8_counterexample :
    parse gAmb 5 ['0', ' ', '0'] =
      some (ParseOutcome.ambiguous
        [(NonTerminal.Atom, [StackValue.Terminal Terminal.Zero]),
         (NonTerminal.Number, [StackValue.Terminal Terminal.Zero])]) := rfl

/-- C8 amended: a completed parse either succeeds, or returns the
rejected-stack failure as the `Err` value — carrying exactly the residual
stack the engine stopped with — or aborts with the ambiguity report; the
aborts are not `Err` values of the `Result`. -/
theorem c8_result_err_only_rejection (g : Grammar) (fuel : Nat) (ts : List Terminal)
    (r : ParseOutcome) (h : parseExprT g fuel ts = some r) :
    r = ParseOutcome.ok ∨
      (∃ s, r = ParseOutcome.rejected s ∧ runStack g fuel ts [] = some (Except.ok s)) ∨
      (∃ rep, r = ParseOutcome.ambiguous rep) := by
  unfold parseExprT at h
  cases hrs : runStack g fuel ts [] with
  | none =>
    rw [hrs] at h
    exact Option.noConfusion h
  | some rr =>
    cases rr with
    | error rep =>
      rw [hrs] at h
      right; right
      exact ⟨rep, (Option.some.inj h).symm⟩
    | ok s =>
      rw [hrs] at h
      have hr' : acceptOutcome s = r := Option.some.inj h
      cases s with
      | nil =>
        right; left
        exact ⟨[], hr'.symm, rfl⟩
      | cons v tail =>
        cases v with
        | Terminal t =>
          cases tail with
          | nil =>
            left
            exact hr'.symm
          | cons w tail₂ =>
            right; left
            exact ⟨StackValue.Terminal t :: w :: tail₂, hr'.symm, rfl⟩
        | Tree head values =>
          right; left
          exact ⟨StackValue.Tree head values :: tail, hr'.symm, rfl⟩

/-- C8 witness: a two-token input under `Number → '0'` is rejected, and the
rejection carries the residual stack. -/
theorem c8_amended_witness :
    ParseOutcome.rejected
        [StackValue.Tree NonTerminal.Number [StackValue.Terminal Terminal.Zero],
         StackValue.Terminal Terminal.Zero] = ParseOutcome.ok ∨
      (∃ s, ParseOutcome.rejected
          [StackValue.Tree NonTerminal.Number [StackValue.Terminal Terminal.Zero],
           StackValue.Terminal Terminal.Zero] = ParseOutcome.rejected s ∧
        runStack gNum 5 [Terminal.Zero, Terminal.Zero] [] = some (Except.ok s)) ∨
      (∃ rep, ParseOutcome.rejected
          [StackValue.Tree NonTerminal.Number [StackValue.Terminal Terminal.Zero],
           StackValue.Terminal Terminal.Zero] = ParseOutcome.ambiguous rep) :=
  c8_result_err_only_rejection gNum 5 [Terminal.Zero, Terminal.Zero] _ rfl

/-- C9 counterexample: the claim quantifies over EVERY stack; under the
grammar with the single (non-empty) rule `Mult → '0'`, whose unit-production
relation is acyclic, the reduce loop diverges on the (unreachable) stack
`['0', '+']`: the leading `'0'` matches forever while the drain keeps
rewrapping the trailing entry. -/
theorem c9_counterexample :
    (∀ nt rhs, rhs ∈ gMult.rules nt → rhs ≠ []) ∧
    (∀ X, ¬ Relation.TransGen (UnitRel gMult) X X) ∧
    ¬ ∃ fuel r, reduceLoop gMult fuel
        [StackValue.Terminal Terminal.Zero, StackValue.Terminal Terminal.Plus] = some r := by
  refine ⟨by decide, gMult_acyclic, ?_⟩
  rintro ⟨fuel, r, hr⟩
  rw [gMult_diverges fuel (StackValue.Terminal Terminal.Plus)] at hr
  exact Option.noConfusion hr

/-- C9 amended: restricted to stacks the engine can actually examine
(`Reach`), the claim holds: if every production is non-empty and the
unit-production relation is acyclic, the reduce loop terminates — a reduction
spanning the whole stack collapses it to a singleton, after which each unit
reduction follows one edge of the acyclic (hence well-founded) relation. -/
theorem c9_reduce_terminates_on_reachable (g : Grammar)
    (h1 : ∀ nt rhs, rhs ∈ g.rules nt → rhs ≠ [])
    (h2 : ∀ X, ¬ Relation.TransGen (UnitRel g) X X) :
    ∀ s, Reach g s → ∃ fuel r, reduceLoop g fuel s = some r := by
  have hwf := unitRel_wf g h2
  intro s hr
  cases hcs : candidates (items g) s with
  | nil => exact ⟨1, Except.ok s, reduceLoop_succ_nil hcs⟩
  | cons c cs =>
    cases cs with
    | cons c₂ cs₂ =>
      refine ⟨1, Except.error (ambReport s (candidates (items g) s)), ?_⟩
      apply reduceLoop_succ_amb
      rw [hcs]
      simp
    | nil =>
      obtain ⟨len, ntc⟩ := c
      have hmemc : (len, ntc) ∈ candidates (items g) s := by
        rw [hcs]
        exact List.mem_singleton.mpr rfl
      obtain ⟨rhs, hri, hrm, hrl⟩ := mem_candidates.mp hmemc
      have hne : rhs ≠ [] := h1 ntc rhs (items_rhs_mem hri)
      rcases (reach_invariant g s hr).2 ntc rhs hri hrm with hfull | hnil
      · have hlen : len = s.length := by
          rw [← hrl]
          exact hfull
        subst hlen
        obtain ⟨fuel, r, hrun⟩ :=
          singleton_loop_terminates g h1 hwf (symbolOf (StackValue.Tree ntc s))
            (StackValue.Tree ntc s) rfl
        refine ⟨fuel + 1, r, ?_⟩
        rw [reduceLoop_succ_single hcs, applyReduction_full]
        exact hrun
      · exact absurd hnil hne

/-- C9 witness: the rule-less grammar satisfies both hypotheses, and the loop
terminates on the reachable empty stack. -/
theorem c9_amended_witness : ∃ fuel r, reduceLoop gEmpty fuel [] = some r :=
  c9_reduce_terminates_on_reachable gEmpty
    (fun _ rhs hmem => absurd hmem (List.not_mem_nil rhs))
    gEmpty_acyclic [] Reach.init

/-- C10: an input with no whitespace-separated tokens never succeeds: the
token loop never runs, the stack stays empty, and the acceptance test returns
the rejection carrying the empty stack. -/
theorem c10_empty_input_rejected (g : Grammar) (fuel : Nat) (input : List Char)
    (h : splitWhitespace input = []) :
    parse g fuel input = some (ParseOutcome.rejected []) := by
  unfold parse
  rw [h]
  rfl

/-- C10 witness: a whitespace-only input under `Number → '0'`. -/
theorem c10_witness :
    splitWhitespace [' ', ' '] = [] ∧
    parse gNum 1 [' ', ' '] = some (ParseOutcome.rejected []) :=
  ⟨rfl, c10_empty_input_rejected gNum 1 [' ', ' '] rfl⟩

end ShiftReduce
